import Mathlib

/-!
Verification development for the `lecp` LED-control protocol crate.

The wire codec (`LedMsg::serialize` / `LedMsg::deserialize` in `src/lib.rs`),
the compositor's active-element resolution and message pruning
(`Renderer::update_leds` in `src/controller.rs`) and the color scaling
(`impl Mul<f32> for Color` in `src/color.rs`) are shallowly embedded below.
Machine integers (`u8`, `u32`) are modelled as `Nat` with explicit `% 2^w`
wrapping where the Rust code wraps; fallible code returns `Except`;
Rust panics (raw indexing, `unreachable!`) are modelled by a distinguished
`DErr.panic` value so that panic-freedom is a provable statement.
-/

namespace Lecp

/-- `2^32`, the modulus of Rust `u32` arithmetic. -/
def U32 : Nat := 4294967296

/-- Rust `u32::wrapping_add`. -/
def wadd (a b : Nat) : Nat := (a % U32 + b % U32) % U32

/-- Rust `u32::wrapping_sub`. -/
def wsub (a b : Nat) : Nat := (a % U32 + (U32 - b % U32)) % U32

/-- Big-endian bytes of the low `k` bytes of `n` (the slices of
`u32::to_be_bytes` the encoder copies). -/
def beBytes : Nat → Nat → List Nat
  | 0, _ => []
  | k + 1, n => (n >>> (k * 8)) % 256 :: beBytes k n

/-- `Command` from `src/lib.rs`. Payload bytes are `u8`, modelled as `Nat`. -/
inductive Command
  | Null
  | Flat (v : Nat)
  | PulseLinear (v : Nat)
  | PulseQuadratic (v : Nat)
  | FlatStack (v : Nat)
  deriving DecidableEq, Repr

/-- The 3-bit tag the codec assigns to each `Command` variant. -/
def Command.tag : Command → Nat
  | .Null => 0
  | .Flat _ => 1
  | .PulseLinear _ => 2
  | .PulseQuadratic _ => 3
  | .FlatStack _ => 4

/-- `LedMsg` from `src/lib.rs`: `cur_time : u32`, `element : u8`,
`color : u8`, `cmd : Command`. -/
structure LedMsg where
  cur_time : Nat
  element : Nat
  color : Nat
  cmd : Command
  deriving DecidableEq, Repr

/-- The field values fit their Rust machine types. -/
def LedMsg.Valid (m : LedMsg) : Prop :=
  m.cur_time < U32 ∧ m.element < 256 ∧ m.color < 256 ∧
    (∀ v, m.cmd = .Flat v ∨ m.cmd = .PulseLinear v ∨ m.cmd = .PulseQuadratic v ∨
      m.cmd = .FlatStack v → v < 256)

/-- The bytes one record contributes to the output buffer in
`LedMsg::serialize` (`src/lib.rs:203-256`): the scratch `buf[..msg_len]`,
i.e. flag byte, element, color, the time-offset bytes, then the optional
command payload byte. -/
def serRecord (msg : LedMsg) (time : Nat) : List Nat :=
  let diff := wsub msg.cur_time time
  let ft :=
    if diff = 0 then (0x0 <<< 5, [])
    else if diff < 256 then (0x1 <<< 5, [diff % 256])
    else if diff < 65536 then (0x2 <<< 5, beBytes 2 diff)
    else if diff < 16777216 then (0x3 <<< 5, beBytes 3 diff)
    else if diff < 2147483648 ∨ 2147483648 + 16777216 ≤ diff then
      (0x4 <<< 5, beBytes 4 (msg.cur_time % U32))
    else if diff < 2147483648 + 256 then (0x5 <<< 5, [diff % 256])
    else if diff < 2147483648 + 65536 then (0x6 <<< 5, beBytes 2 diff)
    else (0x7 <<< 5, beBytes 3 diff)
  let fc :=
    match msg.cmd with
    | .Null => (0x0 <<< 2, [])
    | .Flat v => (0x1 <<< 2, [v % 256])
    | .PulseLinear v => (0x2 <<< 2, [v % 256])
    | .PulseQuadratic v => (0x3 <<< 2, [v % 256])
    | .FlatStack v => (0x4 <<< 2, [v % 256])
  (ft.1 ||| fc.1) :: msg.element % 256 :: msg.color % 256 :: (ft.2 ++ fc.2)

/-- The record loop of `LedMsg::serialize` (`src/lib.rs:203-267`).
`out` is the written prefix `ret[..i]` of the output buffer (so
`out.length = i` throughout), `retLen` is `ret.len()`, `j` counts consumed
messages. Returns `(written bytes, i, j)` exactly as the code returns
`(i, j)` pairs at its three exit points. -/
def serializeGo (time retLen : Nat) : List LedMsg → Nat → Nat → List Nat →
    List Nat × Nat × Nat
  | [], i, j, out => (out, i, j)
  | msg :: rest, i, j, out =>
    let rb := serRecord msg time
    if i + rb.length ≤ retLen then
      let out' := out ++ rb
      let i' := i + rb.length
      if retLen < i' + 3 then (out', i', j + 1)
      else serializeGo time retLen rest i' (j + 1) out'
    else (out, i, j)

/-- `LedMsg::serialize` (`src/lib.rs:195-268`). `none` models the Rust
panics: the `assert!(ret.len() >= 7)` and the `msgs[0]` read when `time` is
`None` and `msgs` is empty. On success returns the written bytes
`ret[..bytes]` together with the `(bytes, msgs_consumed)` pair the Rust
function returns. -/
def serialize (msgs : List LedMsg) (retLen : Nat) (time? : Option Nat) :
    Option (List Nat × Nat × Nat) :=
  if retLen < 7 then none
  else
    match time? with
    | some t => some (serializeGo t retLen msgs 4 0 (beBytes 4 t))
    | none =>
      match msgs with
      | [] => none
      | m :: _ => some (serializeGo m.cur_time retLen msgs 4 0 (beBytes 4 m.cur_time))

/-- Decode-side error: `BadInput` as produced by `LedMsg::deserialize`, or
`panic`, marking a place where the Rust code would panic (out-of-bounds raw
indexing or `unreachable!`). -/
inductive DErr
  | badInput (s : String)
  | panic
  deriving DecidableEq, Repr

/-- The `extra_bytes` error closure of `LedMsg::deserialize`
(`src/lib.rs:121-126`). -/
def extraBytes (buf : List Nat) (i : Nat) : DErr :=
  .badInput ("There was an extra " ++ toString (buf.length - i) ++
    " bytes at the end of the buffer.")

/-- The summing loop of `slice_to_u32` (`src/lib.rs:99-101`), with `n` the
already-decremented byte count: `for i in 0..n { ret += buf[i] << ((n-i)*8) }`.
`rem = n - i` counts the remaining iterations (so the recursion is
structural); raw indexing is modelled with `get?`/`panic`. The `u32`
addition is wrapped; for byte-valued inputs it never wraps. -/
def stuLoop (buf : List Nat) (n : Nat) : Nat → Nat → Nat → Except DErr Nat
  | 0, _, ret => .ok ret
  | rem + 1, i, ret =>
    match buf.get? i with
    | none => .error .panic
    | some b => stuLoop buf n rem (i + 1) (wadd ret (b <<< ((n - i) * 8)))

/-- `slice_to_u32` (`src/lib.rs:91-103`): big-endian read of `min bytes 4`
bytes from `buf`, failing with `orElse` when the slice is too short. -/
def slice_to_u32 (buf : List Nat) (bytes : Nat) (orElse : DErr) :
    Except DErr Nat :=
  let bytes := min bytes 4
  match buf.get? (bytes - 1) with
  | none => .error orElse
  | some u0 => stuLoop buf (bytes - 1) (bytes - 1) 0 (u0 % U32)

/-- The time-flag match of `LedMsg::deserialize` (`src/lib.rs:130-158`):
from the header byte's top 3 bits, compute the record's `cur_time` and the
number of time-offset bytes `extra0`. The `_ => unreachable!()` arm is
`panic` (it cannot fire for a byte-valued header). -/
def timeField (buf : List Nat) (time i hb : Nat) : Except DErr (Nat × Nat) :=
  let e := extraBytes buf i
  match hb >>> 5 with
  | 0 => .ok (time, 0)
  | 1 => (slice_to_u32 (buf.drop (i + 3)) 1 e).map (fun v => (wadd time v, 1))
  | 2 => (slice_to_u32 (buf.drop (i + 3)) 2 e).map (fun v => (wadd time v, 2))
  | 3 => (slice_to_u32 (buf.drop (i + 3)) 3 e).map (fun v => (wadd time v, 3))
  | 4 => (slice_to_u32 (buf.drop (i + 3)) 4 e).map (fun v => (v, 4))
  | 5 => (slice_to_u32 (buf.drop (i + 3)) 1 e).map (fun v => (wsub time v, 1))
  | 6 => (slice_to_u32 (buf.drop (i + 3)) 2 e).map (fun v => (wsub time v, 2))
  | 7 => (slice_to_u32 (buf.drop (i + 3)) 3 e).map (fun v => (wsub time v, 3))
  | _ => .error .panic

/-- The command match of `LedMsg::deserialize` (`src/lib.rs:159-183`): from
the header byte's bits 4..2, the `Command` and its payload byte count. -/
def cmdField (buf : List Nat) (i extra0 hb : Nat) : Except DErr (Command × Nat) :=
  let e := extraBytes buf i
  match (hb >>> 2) &&& 0x07 with
  | 0 => .ok (.Null, 0)
  | 1 =>
    match buf.get? (i + 3 + extra0) with
    | none => .error e
    | some v => .ok (.Flat v, 1)
  | 2 =>
    match buf.get? (i + 3 + extra0) with
    | none => .error e
    | some v => .ok (.PulseLinear v, 1)
  | 3 =>
    match buf.get? (i + 3 + extra0) with
    | none => .error e
    | some v => .ok (.PulseQuadratic v, 1)
  | 4 =>
    match buf.get? (i + 3 + extra0) with
    | none => .error e
    | some v => .ok (.FlatStack v, 1)
  | v => .error (.badInput ("Unknown command was given: " ++ toString v))

/-- The `while i < buf.len()` record loop of `LedMsg::deserialize`
(`src/lib.rs:120-192`). Raw reads `buf[i]`, `buf[i+1]`, `buf[i+2]` are
modelled with `get?`/`panic`; they sit behind the `i + 2 >= buf.len()`
guard exactly as in the code. `fuel` keeps the recursion structural; `i`
advances by at least 3 per iteration, so `buf.length` iterations always
suffice and the fuel-exhaustion arm (also the `panic` marker) is
unreachable for the fuel `deserialize` supplies. -/
def desLoop (buf : List Nat) (time : Nat) :
    Nat → Nat → List LedMsg → Except DErr (List LedMsg)
  | 0, i, acc => if i < buf.length then .error .panic else .ok acc
  | fuel + 1, i, acc =>
    if i < buf.length then
      if buf.length ≤ i + 2 then .error (extraBytes buf i)
      else
        match buf.get? i with
        | none => .error .panic
        | some hb =>
          match timeField buf time i hb with
          | .error e => .error e
          | .ok (cur_time, extra0) =>
            match cmdField buf i extra0 hb with
            | .error e => .error e
            | .ok (cmd, extra1) =>
              match buf.get? (i + 1), buf.get? (i + 2) with
              | some el, some co =>
                desLoop buf time fuel (i + 3 + extra0 + extra1)
                  (acc ++ [⟨cur_time, el, co, cmd⟩])
              | _, _ => .error .panic
    else .ok acc

/-- `LedMsg::deserialize` (`src/lib.rs:106-194`). The base time is the
big-endian `u32` of the first four bytes (`src/lib.rs:115-118`). -/
def deserialize (buf : List Nat) : Except DErr (List LedMsg) :=
  if buf.length = 0 then .ok []
  else if buf.length < 4 then
    .error (.badInput "Buffer is too short and doesn't contain time.")
  else
    match buf with
    | b0 :: b1 :: b2 :: b3 :: _ =>
      desLoop buf ((b0 <<< 24) + (b1 <<< 16) + (b2 <<< 8) + b3) buf.length 4 []
    | _ => .error .panic

/-- Rust's `iter().enumerate()` on a list, starting at index `n`. -/
def enumFrom (n : Nat) : List LedMsg → List (Nat × LedMsg)
  | [] => []
  | m :: rest => (n, m) :: enumFrom (n + 1) rest

/-- The inclusion test of `Renderer::update_leds` (`src/controller.rs:93`):
`cur_time.wrapping_sub(msg.cur_time) <= 5_000_000`. -/
def inWindow (cur : Nat) (m : LedMsg) : Bool := wsub cur m.cur_time ≤ 5000000

/-- One step of the `elements` resolution loop of `Renderer::update_leds`
(`src/controller.rs:89-105`): record index `p.1` for element `p.2.element`
if the record is within the expiry window and no index is recorded yet. -/
def elemStep (cur : Nat) (st : Nat → Option Nat) (p : Nat × LedMsg) :
    Nat → Option Nat :=
  if inWindow cur p.2 then
    match st p.2.element with
    | none => fun e => if e = p.2.element then some p.1 else st e
    | some _ => st
  else st

/-- The `elements` array after the reverse enumeration scan of
`Renderer::update_leds` (`src/controller.rs:85-105`): for each element
value, the buffer index of its active record, if any. -/
def activeElems (cur : Nat) (msgs : List LedMsg) : Nat → Option Nat :=
  (enumFrom 0 msgs).reverse.foldl (elemStep cur) (fun _ => none)

/-- The negation of the pruning loop's deletion condition
(`src/controller.rs:180-182`): a record at index `i` is kept iff it is the
active record for its element and its age is within the expiry window. -/
def keepMsg (cur : Nat) (elements : Nat → Option Nat) (i : Nat)
    (m : LedMsg) : Bool :=
  elements m.element == some i && wsub cur m.cur_time ≤ 5000000

/-- `Vec::swap` on the list model (in the pruning loop both indices are
always in bounds). -/
def lswap (a : List LedMsg) (i j : Nat) : List LedMsg :=
  match a.get? i, a.get? j with
  | some x, some y => (a.set i y).set j x
  | _, _ => a

/-- The compaction loop of `Renderer::update_leds` (`src/controller.rs:
177-187`): walk the buffer, counting deleted records in `del` and swapping
each kept record `del` slots down. Returns the walked buffer and the final
deletion count. -/
def pruneGo (cur : Nat) (elements : Nat → Option Nat) (a : List LedMsg)
    (i del : Nat) : List LedMsg × Nat :=
  if h : i < a.length then
    let msg := a.get ⟨i, h⟩
    if keepMsg cur elements i msg then
      if 0 < del then pruneGo cur elements (lswap a (i - del) i) (i + 1) del
      else pruneGo cur elements a (i + 1) del
    else pruneGo cur elements a (i + 1) (del + 1)
  else (a, del)
  termination_by a.length - i
  decreasing_by
  · simp only [lswap]
    split <;> simp_all <;> omega
  · omega
  · omega

/-- The pruning step of `Renderer::update_leds` (`src/controller.rs:
176-190`): compaction loop followed by `truncate(len - del)`. -/
def pruneMsgs (cur : Nat) (elements : Nat → Option Nat)
    (msgs : List LedMsg) : List LedMsg :=
  let r := pruneGo cur elements msgs 0 0
  r.1.take (r.1.length - r.2)

/-- The retained message buffer after one `Renderer::update_leds` tick with
current time `cur` and buffered messages `msgs`: the pruning loop run
against the `elements` map resolved earlier in the same tick with the same
`cur`. -/
def updateLedsMsgs (cur : Nat) (msgs : List LedMsg) : List LedMsg :=
  pruneMsgs cur (activeElems cur msgs) msgs

/-- `Color` from `src/color.rs`: four `u8` channels. -/
structure Color where
  red : Nat
  green : Nat
  blue : Nat
  alpha : Nat
  deriving DecidableEq, Repr

/-- Rust `f32::round`: round half away from zero, on the exact rational
value. -/
def rustRound (q : ℚ) : ℤ :=
  if q < 0 then -(⌊-q + 1/2⌋) else ⌊q + 1/2⌋

/-- One channel of `impl Mul<f32> for Color` (`src/color.rs:25-27`):
`(chan as f32 * rhs).round().min(255.0) as u8`. The `f32` arithmetic is
modelled exactly over `ℚ`; the final `as u8` saturating cast clamps to
`[0, 255]` (the `min` already bounds above, `Int.toNat` clamps below). -/
def scaleChan (c : Nat) (q : ℚ) : Nat := (min (rustRound (c * q)) 255).toNat

/-- `impl Mul<f32> for Color` (`src/color.rs:22-30`): scale red, blue and
green; `alpha` is untouched. -/
def Color.mulF (c : Color) (q : ℚ) : Color :=
  { red := scaleChan c.red q
    green := scaleChan c.green q
    blue := scaleChan c.blue q
    alpha := c.alpha }

/-! ### Helper lemmas about the enumeration and the active-element scan -/

theorem enumFrom_append (n : Nat) (l1 l2 : List LedMsg) :
    enumFrom n (l1 ++ l2) = enumFrom n l1 ++ enumFrom (n + l1.length) l2 := by
  induction l1 generalizing n with
  | nil => simp [enumFrom]
  | cons m rest ih =>
    simp only [List.cons_append, enumFrom, List.append_eq, ih, List.length_cons,
      List.cons.injEq, true_and]
    congr 2
    omega

theorem enumFrom_map_snd (n : Nat) (l : List LedMsg) :
    (enumFrom n l).map Prod.snd = l := by
  induction l generalizing n with
  | nil => rfl
  | cons m rest ih => simp [enumFrom, ih]

theorem mem_enumFrom {p : Nat × LedMsg} :
    ∀ {n : Nat} {l : List LedMsg}, p ∈ enumFrom n l →
      n ≤ p.1 ∧ l.get? (p.1 - n) = some p.2 := by
  intro n l
  induction l generalizing n with
  | nil => simp [enumFrom]
  | cons m rest ih =>
    intro hmem
    simp only [enumFrom, List.mem_cons] at hmem
    rcases hmem with h | h
    · subst h
      simp
    · obtain ⟨h1, h2⟩ := ih h
      refine ⟨by omega, ?_⟩
      have : p.1 - n = (p.1 - (n + 1)) + 1 := by omega
      rw [this]
      simpa using h2

theorem enumFrom_pairwise (n : Nat) (l : List LedMsg) :
    (enumFrom n l).Pairwise (fun p q => p.1 < q.1) := by
  induction l generalizing n with
  | nil => simp [enumFrom]
  | cons m rest ih =>
    simp only [enumFrom, List.pairwise_cons]
    refine ⟨fun q hq => ?_, ih (n + 1)⟩
    have := (mem_enumFrom hq).1
    omega

/-- `elemStep` leaves the entry of any other element unchanged. -/
theorem elemStep_apply_ne {cur : Nat} {st : Nat → Option Nat}
    {p : Nat × LedMsg} {e : Nat} (he : e ≠ p.2.element) :
    elemStep cur st p e = st e := by
  unfold elemStep
  split
  · cases hst : st p.2.element with
    | none => simp [hst, he]
    | some w => simp [hst]
  · rfl

/-- `elemStep` never overwrites an entry that is already set. -/
theorem elemStep_apply_some {cur : Nat} {st : Nat → Option Nat}
    {p : Nat × LedMsg} {e v : Nat} (h : st e = some v) :
    elemStep cur st p e = some v := by
  unfold elemStep
  split
  · cases hst : st p.2.element with
    | none =>
      by_cases he : e = p.2.element
      · rw [he] at h; rw [h] at hst; cases hst
      · simp [hst, he, h]
    | some w => simp [hst, h]
  · exact h

/-- If the state already holds a value for `e`, the scan never overwrites
it. -/
theorem foldl_elemStep_some {cur : Nat} {e v : Nat} :
    ∀ (L : List (Nat × LedMsg)) (st : Nat → Option Nat), st e = some v →
      L.foldl (elemStep cur) st e = some v := by
  intro L
  induction L with
  | nil => intro st h; simpa using h
  | cons p L ih =>
    intro st h
    simp only [List.foldl_cons]
    exact ih _ (elemStep_apply_some h)

/-- If the state holds nothing for `e`, the scan ends with the index of
the first in-window record for `e` in its input order. -/
theorem foldl_elemStep_none {cur : Nat} {e : Nat} :
    ∀ (L : List (Nat × LedMsg)) (st : Nat → Option Nat), st e = none →
      L.foldl (elemStep cur) st e =
        (L.find? (fun p => p.2.element == e && inWindow cur p.2)).map Prod.fst := by
  intro L
  induction L with
  | nil => intro st h; simpa using h
  | cons p L ih =>
    intro st h
    simp only [List.foldl_cons, List.find?_cons]
    by_cases hw : inWindow cur p.2
    · by_cases he : p.2.element = e
      · subst he
        have hpred : (p.2.element == p.2.element && inWindow cur p.2) = true := by
          simp [hw]
        rw [hpred]
        have hupd : elemStep cur st p p.2.element = some p.1 := by
          unfold elemStep
          simp [hw, h]
        simp only [foldl_elemStep_some L _ hupd, Option.map_some']
      · have hpred : (p.2.element == e && inWindow cur p.2) = false := by
          simp [he]
        rw [hpred]
        exact ih (elemStep cur st p)
          (by rw [elemStep_apply_ne (fun hh => he hh.symm)]; exact h)
    · have hpred : (p.2.element == e && inWindow cur p.2) = false := by
        simp [hw]
      rw [hpred]
      have hstep : elemStep cur st p = st := by
        unfold elemStep
        simp [hw]
      rw [hstep]
      exact ih st h

/-- The `elements` array equals the first in-window hit of the reversed
enumeration, i.e. the last in-window record for each element. -/
theorem activeElems_eq (cur : Nat) (msgs : List LedMsg) (e : Nat) :
    activeElems cur msgs e =
      ((enumFrom 0 msgs).reverse.find?
        (fun p => p.2.element == e && inWindow cur p.2)).map Prod.fst :=
  foldl_elemStep_none _ _ rfl

/-- `find?` on a list whose prefix fails the predicate finds the first
satisfying element after it. -/
theorem find?_first {α : Type} (p : α → Bool) (l1 l2 : List α) (b : α)
    (h1 : ∀ x ∈ l1, p x = false) (hb : p b = true) :
    (l1 ++ b :: l2).find? p = some b := by
  have hnone : l1.find? p = none := by
    rw [List.find?_eq_none]
    intro x hx
    simp [h1 x hx]
  rw [List.find?_append, hnone, Option.none_or, List.find?_cons, hb]

/-- An index produced by the active-element scan points at an in-window
record of that element. -/
theorem activeElems_some {cur : Nat} {msgs : List LedMsg} {e i : Nat}
    (h : activeElems cur msgs e = some i) :
    ∃ m, msgs.get? i = some m ∧ m.element = e ∧ inWindow cur m = true := by
  rw [activeElems_eq] at h
  match hf : ((enumFrom 0 msgs).reverse.find?
      (fun p => p.2.element == e && inWindow cur p.2)) with
  | none => rw [hf] at h; exact absurd h (by simp)
  | some q =>
    rw [hf] at h
    have hq1 : q.1 = i := by simpa using h
    have hmem : q ∈ (enumFrom 0 msgs).reverse := List.mem_of_find?_eq_some hf
    have hpred := List.find?_some hf
    rw [List.mem_reverse] at hmem
    obtain ⟨-, hget⟩ := mem_enumFrom hmem
    simp only [Nat.sub_zero] at hget
    refine ⟨q.2, hq1 ▸ hget, ?_, ?_⟩
    · exact beq_iff_eq.mp ((Bool.and_eq_true _ _).mp hpred).1
    · exact ((Bool.and_eq_true _ _).mp hpred).2

/-! ### The pruning loop is a stable in-place filter -/

theorem lswap_length (a : List LedMsg) (i j : Nat) :
    (lswap a i j).length = a.length := by
  unfold lswap
  split <;> simp_all

theorem lswap_drop (a : List LedMsg) (i j n : Nat) (hi : i < n) (hj : j < n) :
    (lswap a i j).drop n = a.drop n := by
  unfold lswap
  split
  · rw [List.drop_set, List.drop_set]
    simp [hi, hj]
  · rfl

theorem lswap_take (a : List LedMsg) (i del : Nat) (h : i < a.length)
    (hdel : 0 < del) (hdi : del ≤ i) :
    (lswap a (i - del) i).take (i + 1 - del) =
      a.take (i - del) ++ [a.get ⟨i, h⟩] := by
  have hid : i - del < a.length := by omega
  have hg1 : a.get? (i - del) = some (a.get ⟨i - del, hid⟩) := by
    rw [List.get?_eq_getElem?, List.getElem?_eq_getElem hid]
    rfl
  have hg2 : a.get? i = some (a.get ⟨i, h⟩) := by
    rw [List.get?_eq_getElem?, List.getElem?_eq_getElem h]
    rfl
  unfold lswap
  rw [hg1, hg2]
  have hmin : (i - del) ⊓ a.length = i - del := by omega
  apply List.ext_getElem?
  intro n
  simp only [List.getElem?_take, List.getElem?_set, List.length_set,
    List.getElem?_append, List.length_take, hmin]
  rcases Nat.lt_trichotomy n (i - del) with hc | hc | hc
  · rw [if_pos (by omega : n < i + 1 - del), if_neg (by omega : ¬ i = n),
      if_neg (by omega : ¬ i - del = n), if_pos hc]
    simp [hc]
  · rw [if_pos (by omega : n < i + 1 - del), if_neg (by omega : ¬ i = n),
      if_pos hc.symm, if_pos hid, if_neg (by omega : ¬ n < i - del)]
    rw [show n - (i - del) = 0 from by omega]
    simp
  · rw [if_neg (by omega : ¬ n < i + 1 - del), if_neg (by omega : ¬ n < i - del)]
    rw [show n - (i - del) = (n - (i - del) - 1) + 1 from by omega]
    simp

theorem pruneGo_stop (cur : Nat) (elements : Nat → Option Nat)
    (a : List LedMsg) (i del : Nat) (h : ¬ i < a.length) :
    pruneGo cur elements a i del = (a, del) := by
  rw [pruneGo]
  simp [h]

/-- The compaction loop, truncated at `length - del`, is the stable filter
of the kept records: the invariant is that positions `[0, i - del)` hold
the records kept so far and positions from `i` on are untouched. -/
theorem pruneGo_spec (cur : Nat) (elements : Nat → Option Nat) :
    ∀ (k : Nat) (a : List LedMsg) (i del : Nat),
      a.length - i ≤ k → del ≤ i → i ≤ a.length →
      (pruneGo cur elements a i del).1.take
          ((pruneGo cur elements a i del).1.length -
            (pruneGo cur elements a i del).2) =
        a.take (i - del) ++
          ((enumFrom i (a.drop i)).filter
            (fun p => keepMsg cur elements p.1 p.2)).map Prod.snd := by
  intro k
  induction k with
  | zero =>
    intro a i del hk hdel hi
    have hstop : ¬ i < a.length := by omega
    rw [pruneGo_stop cur elements a i del hstop]
    have hii : i = a.length := by omega
    rw [List.drop_of_length_le (by omega)]
    simp [enumFrom, hii]
  | succ k ih =>
    intro a i del hk hdel hi
    by_cases h : i < a.length
    · have hdropc : a.drop i = a.get ⟨i, h⟩ :: a.drop (i + 1) := by
        rw [List.drop_eq_getElem_cons h]
        rfl
      have henum : enumFrom i (a.drop i) =
          (i, a.get ⟨i, h⟩) :: enumFrom (i + 1) (a.drop (i + 1)) := by
        rw [hdropc]
        rfl
      rw [pruneGo]
      rw [dif_pos h]
      by_cases hkeep : keepMsg cur elements i (a.get ⟨i, h⟩)
      · rw [if_pos hkeep]
        by_cases hd : 0 < del
        · rw [if_pos hd]
          have hlen : (lswap a (i - del) i).length = a.length :=
            lswap_length a (i - del) i
          have := ih (lswap a (i - del) i) (i + 1) del
            (by omega) (by omega) (by omega)
          rw [this]
          rw [lswap_drop a (i - del) i (i + 1) (by omega) (by omega)]
          rw [lswap_take a i del h hd hdel]
          rw [henum, List.filter_cons]
          simp only [hkeep, if_pos]
          simp [List.append_assoc]
        · rw [if_neg hd]
          have hdel0 : del = 0 := by omega
          subst hdel0
          have := ih a (i + 1) 0 (by omega) (by omega) (by omega)
          rw [this]
          rw [henum, List.filter_cons]
          simp only [hkeep, if_pos]
          have htake : a.take (i + 1) = a.take i ++ [a.get ⟨i, h⟩] := by
            rw [List.take_succ, List.getElem?_eq_getElem h]
            rfl
          simp only [Nat.sub_zero]
          rw [htake, List.append_assoc]
          rfl
      · rw [if_neg hkeep]
        have := ih a (i + 1) (del + 1) (by omega) (by omega) (by omega)
        rw [this]
        rw [henum, List.filter_cons]
        rw [show i + 1 - (del + 1) = i - del from by omega]
        rw [if_neg hkeep]
    · rw [pruneGo_stop cur elements a i del h]
      rw [List.drop_of_length_le (by omega)]
      have hii : i = a.length := by omega
      simp [enumFrom, hii]

/-- `Renderer::update_leds`'s prune step equals a stable filter of the
enumerated buffer by the keep condition. -/
theorem pruneMsgs_eq_filter (cur : Nat) (elements : Nat → Option Nat)
    (msgs : List LedMsg) :
    pruneMsgs cur elements msgs =
      ((enumFrom 0 msgs).filter
        (fun p => keepMsg cur elements p.1 p.2)).map Prod.snd := by
  unfold pruneMsgs
  have := pruneGo_spec cur elements msgs.length msgs 0 0
    (by omega) (by omega) (by omega)
  simpa using this

theorem enumFrom_mem_of_get? :
    ∀ (n : Nat) (l : List LedMsg) (i : Nat) (m : LedMsg),
      l.get? i = some m → (n + i, m) ∈ enumFrom n l := by
  intro n l
  induction l generalizing n with
  | nil => intro i m hg; simp at hg
  | cons x rest ih =>
    intro i m hg
    match i with
    | 0 =>
      simp only [List.get?] at hg
      cases hg
      simp [enumFrom]
    | i' + 1 =>
      simp only [List.get?] at hg
      have := ih (n + 1) i' m hg
      simp only [enumFrom, List.mem_cons]
      right
      have harith : n + 1 + i' = n + (i' + 1) := by omega
      rwa [harith] at this

/-! ### Claim theorems -/

/-- Claim C3, counterexample: a buffered record whose age is exactly
5,000,000 µs (current time 5,000,000, record time 0) IS included in the
active element set (`elements[0] = Some(0)`), because the code's test at
`src/controller.rs:93` is `<= 5_000_000`; the claim says such a record is
excluded. -/
theorem C3_counterexample :
    wsub 5000000 0 = 5000000 ∧
    activeElems 5000000 [⟨0, 7, 9, .Null⟩] 7 = some 0 := by
  exact ⟨rfl, rfl⟩

/-- Claim C3 (amended): for a fixed current time, a buffered record whose
age (wraparound-safe `now - record.time`) is exactly 5,000,000 µs is still
included in the compositor's active element set (as is a record with age
4,999,999), while a record one microsecond older (age 5,000,001) is
excluded — the boundary is inclusive. -/
theorem C3_expiry_boundary (cur cur' cur'' : Nat) (msg msg' msg'' : LedMsg)
    (h5 : wsub cur msg.cur_time = 5000000)
    (h6 : wsub cur' msg'.cur_time = 5000001)
    (h7 : wsub cur'' msg''.cur_time = 4999999) :
    activeElems cur [msg] msg.element = some 0 ∧
    activeElems cur' [msg'] msg'.element = none ∧
    activeElems cur'' [msg''] msg''.element = some 0 := by
  refine ⟨?_, ?_, ?_⟩
  · simp [activeElems, enumFrom, elemStep, inWindow, h5]
  · simp [activeElems, enumFrom, elemStep, inWindow, h6]
  · simp [activeElems, enumFrom, elemStep, inWindow, h7]

/-- Witness for `C3_expiry_boundary` at current times 5,000,000, 5,000,001
and 4,999,999 against records with time 0. -/
theorem C3_expiry_boundary_witness :
    wsub 5000000 0 = 5000000 ∧ wsub 5000001 0 = 5000001 ∧
    wsub 4999999 0 = 4999999 ∧
    (activeElems 5000000 [⟨0, 1, 2, .Null⟩] 1 = some 0 ∧
      activeElems 5000001 [⟨0, 1, 2, .Null⟩] 1 = none ∧
      activeElems 4999999 [⟨0, 1, 2, .Null⟩] 1 = some 0) :=
  ⟨by decide, by decide, by decide,
    C3_expiry_boundary 5000000 5000001 4999999
      ⟨0, 1, 2, .Null⟩ ⟨0, 1, 2, .Null⟩ ⟨0, 1, 2, .Null⟩
      (by decide) (by decide) (by decide)⟩

/-- Claim C4, counterexample: two records for element 0, both within the
expiry window at current time 100; the record with the LARGER time (100,
at buffer index 0) is not selected — the scan picks buffer index 1, whose
time 50 is smaller, because the reverse scan prefers the later buffer
position, not the newer timestamp. -/
theorem C4_counterexample :
    activeElems 100 [⟨100, 0, 0, .Null⟩, ⟨50, 0, 0, .Null⟩] 0 = some 1 ∧
    wsub 100 100 ≤ 5000000 ∧ wsub 100 50 ≤ 5000000 ∧ (50 : Nat) < 100 := by
  exact ⟨rfl, by decide, by decide, by decide⟩

/-- Claim C4 (amended): given two in-window records for the same element
(and no other record of that element), the compositor's active record is
the one at the larger buffer index, i.e. the most recently received one,
regardless of which has the larger time. -/
theorem C4_last_in_buffer (cur : Nat) (msgs : List LedMsg) (e i j : Nat)
    (mi mj : LedMsg)
    (hgi : msgs.get? i = some mi) (hgj : msgs.get? j = some mj)
    (hij : i < j)
    (hie : mi.element = e) (hje : mj.element = e)
    (hwi : inWindow cur mi = true) (hwj : inWindow cur mj = true)
    (honly : ∀ k mk, msgs.get? k = some mk → mk.element = e → k = i ∨ k = j) :
    activeElems cur msgs e = some j := by
  obtain ⟨hjlen, hgetj⟩ := List.get?_eq_some.mp hgj
  have hgetj2 : msgs[j] = mj := hgetj
  have hsplit : msgs = msgs.take j ++ mj :: msgs.drop (j + 1) := by
    conv_lhs => rw [← List.take_append_drop j msgs]
    rw [List.drop_eq_getElem_cons hjlen, hgetj2]
  have htlen : (msgs.take j).length = j := by
    simp [List.length_take]
    omega
  have henum : enumFrom 0 msgs =
      enumFrom 0 (msgs.take j) ++
        (j, mj) :: enumFrom (j + 1) (msgs.drop (j + 1)) := by
    conv_lhs => rw [hsplit]
    rw [enumFrom_append, htlen, Nat.zero_add]
    rfl
  rw [activeElems_eq, henum, List.reverse_append, List.reverse_cons,
    List.append_assoc, List.singleton_append]
  rw [find?_first _ _ _ _ ?_ ?_]
  · rfl
  · intro x hx
    rw [List.mem_reverse] at hx
    obtain ⟨hx1, hx2⟩ := mem_enumFrom hx
    have hgx : msgs.get? x.1 = some x.2 := by
      rw [List.get?_eq_getElem?] at hx2 ⊢
      rw [List.getElem?_drop] at hx2
      rwa [show j + 1 + (x.1 - (j + 1)) = x.1 from by omega] at hx2
    by_contra hpx
    rw [Bool.not_eq_false, Bool.and_eq_true, beq_iff_eq] at hpx
    rcases honly x.1 x.2 hgx hpx.1 with hcx | hcx <;> omega
  · rw [Bool.and_eq_true, beq_iff_eq]
    exact ⟨hje, hwj⟩

/-- Witness for `C4_last_in_buffer` on the two-record buffer
`[{time 100, element 0}, {time 50, element 0}]` at current time 100. -/
theorem C4_last_in_buffer_witness :
    activeElems 100 [⟨100, 0, 1, .Null⟩, ⟨50, 0, 2, .Null⟩] 0 = some 1 :=
  C4_last_in_buffer 100 [⟨100, 0, 1, .Null⟩, ⟨50, 0, 2, .Null⟩] 0 0 1
    ⟨100, 0, 1, .Null⟩ ⟨50, 0, 2, .Null⟩ rfl rfl (by decide) rfl rfl
    (by decide) (by decide)
    (by
      intro k mk hgk hek
      match k, hgk with
      | 0, _ => exact Or.inl rfl
      | 1, _ => exact Or.inr rfl)

/-- Claim C10 (confirmed): after the prune step of `update_leds`, the
retained buffer has pairwise distinct element values (at most one record
per element); every retained record is the active record of its element
(and conversely every active record is retained); every retained record's
age at this tick's current time is within the 5,000,000 µs window; and the
retained records form a sublist of the original buffer (relative order is
preserved). -/
theorem C10_prune_invariants (cur : Nat) (msgs : List LedMsg) :
    ((updateLedsMsgs cur msgs).map LedMsg.element).Nodup ∧
    (∀ m, m ∈ updateLedsMsgs cur msgs →
      wsub cur m.cur_time ≤ 5000000 ∧
      ∃ i, activeElems cur msgs m.element = some i ∧ msgs.get? i = some m) ∧
    (∀ e i, activeElems cur msgs e = some i →
      ∃ m, msgs.get? i = some m ∧ m.element = e ∧
        m ∈ updateLedsMsgs cur msgs) ∧
    (updateLedsMsgs cur msgs).Sublist msgs := by
  have hkept : updateLedsMsgs cur msgs =
      ((enumFrom 0 msgs).filter
        (fun p => keepMsg cur (activeElems cur msgs) p.1 p.2)).map Prod.snd :=
    pruneMsgs_eq_filter cur (activeElems cur msgs) msgs
  have hkeep_iff : ∀ p : Nat × LedMsg,
      keepMsg cur (activeElems cur msgs) p.1 p.2 = true ↔
        (activeElems cur msgs p.2.element = some p.1 ∧
          wsub cur p.2.cur_time ≤ 5000000) := by
    intro p
    simp [keepMsg]
  refine ⟨?_, ?_, ?_, ?_⟩
  · rw [hkept, List.map_map]
    have hpw : ((enumFrom 0 msgs).filter
        (fun p => keepMsg cur (activeElems cur msgs) p.1 p.2)).Pairwise
          (fun p q => p.1 < q.1) :=
      (enumFrom_pairwise 0 msgs).filter _
    have hpw2 : ((enumFrom 0 msgs).filter
        (fun p => keepMsg cur (activeElems cur msgs) p.1 p.2)).Pairwise
          (fun p q => p.2.element ≠ q.2.element) := by
      refine hpw.imp_of_mem ?_
      intro a b ha hb hlt heq
      have hka := ((hkeep_iff a).mp (List.mem_filter.mp ha).2).1
      have hkb := ((hkeep_iff b).mp (List.mem_filter.mp hb).2).1
      rw [heq] at hka
      rw [hka] at hkb
      have hab := Option.some.inj hkb
      omega
    rw [List.Nodup, List.pairwise_map]
    exact hpw2
  · intro m hm
    rw [hkept] at hm
    rw [List.mem_map] at hm
    obtain ⟨p, hpf, hpm⟩ := hm
    have hkp := (hkeep_iff p).mp (List.mem_filter.mp hpf).2
    have hpe : p ∈ enumFrom 0 msgs := (List.mem_filter.mp hpf).1
    obtain ⟨-, hget⟩ := mem_enumFrom hpe
    simp only [Nat.sub_zero] at hget
    subst hpm
    exact ⟨hkp.2, p.1, hkp.1, hget⟩
  · intro e i hact
    obtain ⟨m, hget, hme, hwin⟩ := activeElems_some hact
    refine ⟨m, hget, hme, ?_⟩
    rw [hkept, List.mem_map]
    refine ⟨(i, m), ?_, rfl⟩
    rw [List.mem_filter]
    constructor
    · have := enumFrom_mem_of_get? 0 msgs i m hget
      simpa using this
    · rw [hkeep_iff (i, m)]
      refine ⟨by rw [hme]; exact hact, ?_⟩
      simpa [inWindow] using hwin
  · rw [hkept]
    have hsub : (((enumFrom 0 msgs).filter
        (fun p => keepMsg cur (activeElems cur msgs) p.1 p.2)).map
          Prod.snd).Sublist ((enumFrom 0 msgs).map Prod.snd) :=
      (List.filter_sublist _).map Prod.snd
    rwa [enumFrom_map_snd] at hsub

theorem beBytes_length (k : Nat) : ∀ n, (beBytes k n).length = k := by
  induction k with
  | zero => intro n; rfl
  | succ k ih => intro n; simp [beBytes, ih]

/-- Bit extraction from a header byte assembled as
`(class <<< 5) ||| (tag <<< 2)`. -/
theorem hdr_bits : ∀ c < 8, ∀ t < 8,
    ((c <<< 5) ||| (t <<< 2)) >>> 5 = c ∧
    (((c <<< 5) ||| (t <<< 2)) >>> 2) &&& 7 = t := by decide

/-- Claim C5, counterexample: for the record `{time 65536, Null}` at base
time 0 the encoder uses the 24-bit offset class (header byte `0x60`,
3 offset bytes, 10 bytes written in total). Reading the header per the
claim — top 2 bits as width class, next 3 bits as command tag — gives
width class 1 (8-bit) and command tag 4 (FlatStack), neither of which is
what was encoded (3 offset bytes, Null, tag 0); and the claim's smallest
signed width in {0, 8, 16, 32} for delta 65536 would be 32 bits (11 bytes
in total, not 10). -/
theorem C5_counterexample :
    serialize [⟨65536, 1, 2, .Null⟩] 16 (some 0) =
      some ([0, 0, 0, 0, 0x60, 1, 2, 1, 0, 0], 10, 1) ∧
    (0x60 >>> 6 = 1 ∧ (0x60 >>> 3) &&& 7 = 4 ∧ Command.tag .Null = 0) ∧
    (10 : Nat) ≠ 11 := by
  refine ⟨rfl, ⟨by decide, by decide, rfl⟩, by decide⟩

set_option maxHeartbeats 1600000 in
/-- Claim C5 (amended): each encoded record starts with a header byte
whose top 3 bits select the time class — 0 = no offset, 1/2/3 = 8/16/24
bit offset added to the base, 4 = absolute 32-bit time, 5/6/7 = 8/16/24
bit offset subtracted from the base — chosen by the first matching range
of `diff = record.time -w base`; bits 4..2 hold the command tag (0 Null,
1 Flat, 2 PulseLinear, 3 PulseQuadratic, 4 FlatStack); then come element,
color, the class's offset bytes, and one payload byte unless the command
is Null. -/
theorem C5_header_layout (msg : LedMsg) (base : Nat) :
    ∃ hdr rest,
      serRecord msg base = hdr :: msg.element % 256 :: msg.color % 256 :: rest ∧
      hdr >>> 5 =
        (if wsub msg.cur_time base = 0 then 0
         else if wsub msg.cur_time base < 256 then 1
         else if wsub msg.cur_time base < 65536 then 2
         else if wsub msg.cur_time base < 16777216 then 3
         else if wsub msg.cur_time base < 2147483648 ∨
             2147483648 + 16777216 ≤ wsub msg.cur_time base then 4
         else if wsub msg.cur_time base < 2147483648 + 256 then 5
         else if wsub msg.cur_time base < 2147483648 + 65536 then 6
         else 7) ∧
      (hdr >>> 2) &&& 7 = msg.cmd.tag ∧
      rest.length =
        (if hdr >>> 5 ≤ 4 then hdr >>> 5 else hdr >>> 5 - 4) +
          (if msg.cmd.tag = 0 then 0 else 1) := by
  rcases hcmd : msg.cmd with _ | v | v | v | v <;>
    simp only [serRecord, hcmd, Command.tag] <;>
    (generalize wsub msg.cur_time base = d) <;>
    split_ifs <;> dsimp only <;>
    first
      | contradiction
      | exact ⟨_, _, rfl, by decide, by decide,
          by simp [beBytes_length]⟩

/-- Claim C1 (code bug, failing input): serializing the single record
`{time 2^31, element 1, color 2, Null}` against base time 0 takes the
`diff < 2147483648 + 256` branch (`src/lib.rs:220-222`), which emits the
subtract-flag header `0xA0` with offset byte `diff as u8 = 0`; the decoder
(`src/lib.rs:145-148`) then computes `base - 0 = 0`, so the round trip
yields time 0 instead of 2147483648. The encoder writes `diff`'s low
bytes where the decoder expects the amount to subtract, so every record
whose wrapped delta lies in `[2^31, 2^31 + 2^24)` decodes to the wrong
time. -/
theorem C1_roundtrip_failing_input :
    serialize [⟨2147483648, 1, 2, .Null⟩] 16 (some 0) =
      some ([0, 0, 0, 0, 0xA0, 1, 2, 0], 8, 1) ∧
    deserialize [0, 0, 0, 0, 0xA0, 1, 2, 0] = .ok [⟨0, 1, 2, .Null⟩] ∧
    (⟨0, 1, 2, .Null⟩ : LedMsg) ≠ ⟨2147483648, 1, 2, .Null⟩ := by
  refine ⟨rfl, rfl, by decide⟩

/-- Modelled from the spec (§4.1): the 32-bit-wraparound epoch
disambiguation the spec prescribes for `decode(buffer, local_clock_hint)`.
This mechanism is absent from `LedMsg::deserialize` in `src/lib.rs`, which
takes no clock hint and works with 32-bit times throughout. Combine the
transmitted low 32 bits with the hint's high bits; build the adjacent
epoch candidate, one `2^32` period earlier when the hint's low 32 bits are
below the midpoint and one later otherwise; pick whichever candidate is
numerically closer to the hint. -/
def specReconstruct (hint lo : Nat) : Nat :=
  let cand0 := hint / U32 * U32 + lo % U32
  let cand1 := if hint % U32 < U32 / 2 then cand0 - U32 else cand0 + U32
  let dist0 := if cand0 ≤ hint then hint - cand0 else cand0 - hint
  let dist1 := if cand1 ≤ hint then hint - cand1 else cand1 - hint
  if dist0 ≤ dist1 then cand0 else cand1

/-- Claim C2, counterexample: `LedMsg::deserialize` takes no local clock
hint and reconstructs nothing: for the buffer with base-time bytes
`[0,0,0,5]` it returns the raw 32-bit value 5, while the spec's
reconstruction for a hint just past one wraparound (`2^32 + 4`) mandates
the 64-bit time `2^32 + 5`, which no 32-bit decode result can equal. -/
theorem C2_counterexample :
    deserialize [0, 0, 0, 5, 0, 3, 4] = .ok [⟨5, 3, 4, .Null⟩] ∧
    specReconstruct (U32 + 4) 5 = U32 + 5 ∧
    U32 + 5 ≠ 5 := by
  refine ⟨rfl, by decide, by decide⟩

/-- Claim C2 (amended): the decoder takes only the buffer; it reads the
base time as the big-endian 32-bit value of the first four bytes and uses
it directly — a flag-0 record gets exactly that value, and a flag-1 record
gets that value plus the transmitted 8-bit offset (all mod 2^32); no epoch
candidates and no clock hint are involved. -/
theorem C2_direct_base_time (b0 b1 b2 b3 e c d : Nat) :
    deserialize [b0, b1, b2, b3, 0, e, c] =
      .ok [⟨(b0 <<< 24) + (b1 <<< 16) + (b2 <<< 8) + b3, e, c, .Null⟩] ∧
    deserialize [b0, b1, b2, b3, 0x20, e, c, d] =
      .ok [⟨wadd ((b0 <<< 24) + (b1 <<< 16) + (b2 <<< 8) + b3) (d % U32),
        e, c, .Null⟩] := by
  exact ⟨rfl, rfl⟩

/-- Claim C6, counterexample: the first four bytes of an encoded batch are
the BIG-endian bytes of the base time, not little-endian: encoding base
time 1 writes `[0,0,0,1]` (little-endian would be `[1,0,0,0]`), and
decoding a buffer starting `[1,0,0,0]` yields base time `2^24 = 16777216`,
not 1. -/
theorem C6_counterexample :
    serialize [] 7 (some 1) = some ([0, 0, 0, 1], 4, 0) ∧
    [0, 0, 0, 1] ≠ [1, 0, 0, 0] ∧
    deserialize [1, 0, 0, 0, 0, 5, 6] = .ok [⟨16777216, 5, 6, .Null⟩] ∧
    (16777216 : Nat) ≠ 1 := by
  refine ⟨rfl, by decide, rfl, by decide⟩

/-- Claim C6 (amended): the first 4 bytes of every encoded batch are the
low 32 bits of the base time in BIG-endian byte order, and decode reads
the base time from the first 4 bytes with the same big-endian
interpretation. -/
theorem C6_big_endian (t b0 b1 b2 b3 e c : Nat) :
    serialize [] 7 (some t) = some (beBytes 4 t, 4, 0) ∧
    beBytes 4 t =
      [(t >>> 24) % 256, (t >>> 16) % 256, (t >>> 8) % 256, t % 256] ∧
    deserialize [b0, b1, b2, b3] = .ok [] ∧
    deserialize [b0, b1, b2, b3, 4, e, c, 9] =
      .ok [⟨(b0 <<< 24) + (b1 <<< 16) + (b2 <<< 8) + b3, e, c, .Flat 9⟩] := by
  refine ⟨rfl, rfl, rfl, rfl⟩

/-- Claim C7 (confirmed): the empty buffer decodes to the empty sequence;
every buffer of length 1 to 3 is a `BadInput` error; and a batch whose
second record carries an unknown command tag (5) fails as a whole with a
`BadInput` error even though its first record (a valid `Flat`) was already
decoded — no partial sequence is returned. -/
theorem C7_error_handling :
    deserialize [] = .ok [] ∧
    (∀ buf : List Nat, 0 < buf.length → buf.length < 4 →
      ∃ s, deserialize buf = .error (.badInput s)) ∧
    (∀ t0 t1 t2 t3 e1 c1 v1 e2 c2 : Nat,
      deserialize [t0, t1, t2, t3, 4, e1, c1, v1, 20, e2, c2] =
        .error (.badInput ("Unknown command was given: " ++ toString 5))) := by
  refine ⟨rfl, ?_, ?_⟩
  · intro buf h1 h2
    refine ⟨"Buffer is too short and doesn't contain time.", ?_⟩
    unfold deserialize
    rw [if_neg (by omega : ¬ buf.length = 0), if_pos h2]
  · intro t0 t1 t2 t3 e1 c1 v1 e2 c2
    rfl

/-- Witness for `C7_error_handling` on the length-1 buffer `[9]`. -/
theorem C7_error_handling_witness :
    (0 : Nat) < [(9 : Nat)].length ∧ [(9 : Nat)].length < 4 ∧
    ∃ s, deserialize [9] = .error (.badInput s) :=
  ⟨by decide, by decide,
    C7_error_handling.2.1 [9] (by decide) (by decide)⟩

/-! ### Panic freedom of the decoder -/

theorem map_ne_panic {α β : Type} (x : Except DErr α) (f : α → β)
    (h : x ≠ .error .panic) : x.map f ≠ .error .panic := by
  cases x with
  | ok a => simp [Except.map]
  | error e =>
    simp only [Except.map]
    intro he
    exact h (by rw [Except.error.inj he])

theorem stuLoop_ne_panic (buf : List Nat) (n : Nat) :
    ∀ (rem i ret : Nat), i + rem ≤ buf.length →
      stuLoop buf n rem i ret ≠ .error .panic := by
  intro rem
  induction rem with
  | zero => intro i ret h; simp [stuLoop]
  | succ rem ih =>
    intro i ret h
    rw [stuLoop]
    have hi : i < buf.length := by omega
    cases hget : buf.get? i with
    | none =>
      rw [List.get?_eq_getElem?, List.getElem?_eq_none_iff] at hget
      omega
    | some b => exact ih (i + 1) _ (by omega)

theorem slice_to_u32_ne_panic (buf : List Nat) (bytes : Nat) (orElse : DErr)
    (h : orElse ≠ .panic) : slice_to_u32 buf bytes orElse ≠ .error .panic := by
  unfold slice_to_u32
  dsimp only
  cases hget : buf.get? (min bytes 4 - 1) with
  | none =>
    intro he
    exact h (Except.error.inj he)
  | some u0 =>
    have hlen : min bytes 4 - 1 < buf.length := by
      rw [List.get?_eq_getElem?] at hget
      exact (List.getElem?_eq_some.mp hget).1
    exact stuLoop_ne_panic buf (min bytes 4 - 1) (min bytes 4 - 1) 0 _
      (by omega)

theorem extraBytes_ne_panic (buf : List Nat) (i : Nat) :
    extraBytes buf i ≠ .panic := by
  simp [extraBytes]

theorem timeField_ne_panic (buf : List Nat) (time i hb : Nat)
    (hhb : hb < 256) : timeField buf time i hb ≠ .error .panic := by
  have h5 : hb >>> 5 < 8 := by
    rw [Nat.shiftRight_eq_div_pow]
    omega
  unfold timeField
  interval_cases hv : hb >>> 5 <;>
    first
      | (exact fun he => Except.noConfusion he)
      | (exact map_ne_panic _ _
          (slice_to_u32_ne_panic _ _ _ (extraBytes_ne_panic buf i)))

theorem cmdField_ne_panic (buf : List Nat) (i extra0 hb : Nat) :
    cmdField buf i extra0 hb ≠ .error .panic := by
  unfold cmdField
  rcases hv : (hb >>> 2) &&& 0x07 with _ | _ | _ | _ | _ | v <;>
    first
      | (intro he; exact Except.noConfusion he)
      | (cases hget : buf.get? (i + 3 + extra0) with
          | none =>
            intro he
            exact extraBytes_ne_panic buf i (Except.error.inj he)
          | some w => intro he; exact Except.noConfusion he)
      | (intro he
         exact DErr.noConfusion (Except.error.inj he))

theorem desLoop_ne_panic (buf : List Nat) (hbytes : ∀ b ∈ buf, b < 256)
    (time : Nat) :
    ∀ (fuel i : Nat) (acc : List LedMsg), buf.length - i ≤ 3 * fuel →
      desLoop buf time fuel i acc ≠ .error .panic := by
  intro fuel
  induction fuel with
  | zero =>
    intro i acc hf
    rw [desLoop]
    rw [if_neg (by omega : ¬ i < buf.length)]
    exact fun he => Except.noConfusion he
  | succ fuel ih =>
    intro i acc hf
    rw [desLoop]
    by_cases hi : i < buf.length
    · rw [if_pos hi]
      by_cases hshort : buf.length ≤ i + 2
      · rw [if_pos hshort]
        intro he
        exact extraBytes_ne_panic buf i (Except.error.inj he)
      · rw [if_neg hshort]
        cases hget : buf.get? i with
        | none =>
          rw [List.get?_eq_getElem?, List.getElem?_eq_none_iff] at hget
          omega
        | some hb =>
          dsimp only
          have hhb : hb < 256 := hbytes hb (List.get?_mem hget)
          cases htf : timeField buf time i hb with
          | error e =>
            dsimp only
            have := timeField_ne_panic buf time i hb hhb
            rw [htf] at this
            intro he
            exact this (by rw [Except.error.inj he])
          | ok te =>
            obtain ⟨ct, e0⟩ := te
            dsimp only
            cases hcf : cmdField buf i e0 hb with
            | error e =>
              dsimp only
              have := cmdField_ne_panic buf i e0 hb
              rw [hcf] at this
              intro he
              exact this (by rw [Except.error.inj he])
            | ok ce =>
              obtain ⟨cmd, e1⟩ := ce
              dsimp only
              cases hg1 : buf.get? (i + 1) with
              | none =>
                rw [List.get?_eq_getElem?, List.getElem?_eq_none_iff] at hg1
                omega
              | some el =>
                cases hg2 : buf.get? (i + 2) with
                | none =>
                  rw [List.get?_eq_getElem?, List.getElem?_eq_none_iff] at hg2
                  omega
                | some co =>
                  dsimp only
                  exact ih _ _ (by omega)
    · rw [if_neg hi]
      exact fun he => Except.noConfusion he

/-- Claim C8 (confirmed): for every byte-valued buffer — truncated records,
out-of-range declarations and over-running trailing bytes included —
`LedMsg::deserialize` returns `Ok` or a `BadInput` error; it never reaches
a panic site (raw out-of-bounds indexing or the `unreachable!` arm). -/
theorem C8_no_panic (buf : List Nat) (hbytes : ∀ b ∈ buf, b < 256) :
    deserialize buf ≠ .error .panic := by
  rcases buf with _ | ⟨b0, _ | ⟨b1, _ | ⟨b2, _ | ⟨b3, rest⟩⟩⟩⟩
  · exact fun he => Except.noConfusion he
  · exact fun he => DErr.noConfusion (Except.error.inj he)
  · exact fun he => DErr.noConfusion (Except.error.inj he)
  · exact fun he => DErr.noConfusion (Except.error.inj he)
  · exact desLoop_ne_panic (b0 :: b1 :: b2 :: b3 :: rest) hbytes
      ((b0 <<< 24) + (b1 <<< 16) + (b2 <<< 8) + b3)
      (b0 :: b1 :: b2 :: b3 :: rest).length 4 [] (by simp; omega)

/-- Witness for `C8_no_panic` on a malformed buffer (a truncated record
after the base time). -/
theorem C8_no_panic_witness :
    (∀ b ∈ [(0 : Nat), 0, 0, 0, 255, 1], b < 256) ∧
    deserialize [0, 0, 0, 0, 255, 1] ≠ .error .panic :=
  ⟨by decide, C8_no_panic [0, 0, 0, 0, 255, 1] (by decide)⟩

/-! ### Color scaling -/

theorem rustRound_natCast (r : Nat) : rustRound (r : ℚ) = r := by
  unfold rustRound
  rw [if_neg (not_lt.mpr (by positivity))]
  rw [show ((r : ℚ) + 1 / 2) = ((r : ℤ) : ℚ) + (1 / 2 : ℚ) from by
    push_cast; ring]
  rw [Int.floor_int_add]
  norm_num

theorem scaleChan_one (r : Nat) (h : r < 256) : scaleChan r 1 = r := by
  unfold scaleChan
  rw [mul_one, rustRound_natCast]
  omega

theorem scaleChan_zero (r : Nat) : scaleChan r 0 = 0 := by
  unfold scaleChan
  rw [mul_zero, show rustRound 0 = ((0 : Nat) : ℤ) from by
    rw [show (0 : ℚ) = ((0 : Nat) : ℚ) from by norm_num, rustRound_natCast]]
  decide

/-- Claim C9 (confirmed): for every byte-valued `Color`, multiplying by
factor 1 leaves red, green and blue unchanged; multiplying by factor 0
yields black with alpha preserved; and no factor ever modifies alpha.
The `f32` arithmetic of `impl Mul<f32> for Color` is modelled exactly over
`ℚ` (round half away from zero, `min` with 255, saturating cast to `u8`);
at the claimed factors 1.0 and 0.0 the `f32` computation is itself exact,
so the model is faithful there. -/
theorem C9_color_scale (c : Color) (h1 : c.red < 256) (h2 : c.green < 256)
    (h3 : c.blue < 256) :
    c.mulF 1 = c ∧
    c.mulF 0 = ⟨0, 0, 0, c.alpha⟩ ∧
    (∀ q : ℚ, (c.mulF q).alpha = c.alpha) := by
  refine ⟨?_, ?_, fun q => rfl⟩
  · unfold Color.mulF
    rw [scaleChan_one c.red h1, scaleChan_one c.green h2,
      scaleChan_one c.blue h3]
  · unfold Color.mulF
    rw [scaleChan_zero, scaleChan_zero, scaleChan_zero]

/-- Witness for `C9_color_scale` at the color `{10, 20, 30, 40}`. -/
theorem C9_color_scale_witness :
    (10 : Nat) < 256 ∧ (20 : Nat) < 256 ∧ (30 : Nat) < 256 ∧
    (Color.mulF ⟨10, 20, 30, 40⟩ 1 = ⟨10, 20, 30, 40⟩ ∧
      Color.mulF ⟨10, 20, 30, 40⟩ 0 = ⟨0, 0, 0, 40⟩ ∧
      ∀ q : ℚ, (Color.mulF ⟨10, 20, 30, 40⟩ q).alpha = 40) :=
  ⟨by decide, by decide, by decide,
    C9_color_scale ⟨10, 20, 30, 40⟩ (by decide) (by decide) (by decide)⟩

end Lecp
